import Mathlib

/-
A shallow embedding of the `inject` package (src/inject.go), a runtime
dependency-injection container built on Go reflection.

Modelling choices:
* `Ty` models `reflect.Type` restricted to the kinds the code inspects:
  interface types, pointer types and other concrete types.  Each type
  carries the method set reflect would compute for it, so that
  `k.Implements(t)` becomes a method-set inclusion check.
* `Val` models `reflect.Value`: either the zero `Value` (for which
  `IsValid()` reports `false`) or a value of some type with an abstract
  payload.
* `GoAny` models an `interface{}` argument, which may be `nil`;
  `reflect.TypeOf nil` is the nil `Type` (modelled as `none`) and
  `reflect.ValueOf nil` is the zero `Value`.
* The registry map `map[reflect.Type]reflect.Value` is modelled as an
  association list with in-place overwrite; its keys are `Option Ty`
  because the nil `reflect.Type` is a legal map key (it arises from
  `Map(nil)` or `Set(nil, v)`).  Go's map iteration order is
  unspecified; the list order is one fixed admissible order.
* Calling a method on the nil `reflect.Type` panics in Go.  The places
  where `Get` can hit such a panic (`t.Kind()` on a nil lookup key,
  `k.Implements(t)` on a nil stored key) are modelled explicitly:
  `GetRes.panics` / `ScanRes.panics`, and operations built on `Get`
  (`Apply`, `Invoke`) return `none` when the underlying `Get` panics.
* `reflect.Value.Set` (in `Apply`) and `reflect.Value.Call` (in
  `Invoke`) panic when a value is not assignable to the target type;
  such values are reachable through `Set`/`MapTo` mismatches.
  Assignability (`Val.assignableTo`) is the identical type or an
  interface type the value's type implements, and these panics are
  modelled as the same outer `none`.
-/

set_option maxHeartbeats 1000000

namespace Inject

/-- Method names; interface satisfaction compares method sets. -/
abbrev MethodName := String

/-- Runtime type identifiers (`reflect.Type`), restricted to the kinds the
code inspects.  Each constructor carries the method set reflect would
report for the type. -/
inductive Ty where
  | iface (name : String) (methods : List MethodName)
  | ptr (methods : List MethodName) (elem : Ty)
  | conc (name : String) (methods : List MethodName)
deriving DecidableEq

/-- The method set of a type. -/
def Ty.methods : Ty → List MethodName
  | Ty.iface _ ms => ms
  | Ty.ptr ms _ => ms
  | Ty.conc _ ms => ms

/-- The reflect `Kind`s the code distinguishes. -/
inductive Kind where
  | interfaceK
  | ptrK
  | otherK
deriving DecidableEq

/-- `t.Kind()`. -/
def Ty.kind : Ty → Kind
  | Ty.iface _ _ => Kind.interfaceK
  | Ty.ptr _ _ => Kind.ptrK
  | Ty.conc _ _ => Kind.otherK

/-- `k.Implements(t)` for `t` an interface type: `k`'s method set contains
every method of `t`.  `Get` only calls this with `t` of interface kind. -/
def Ty.implements (k t : Ty) : Bool :=
  match t with
  | Ty.iface _ ms => ms.all (fun m => k.methods.contains m)
  | _ => false

/-- `reflect.Value`: the zero `Value` (`IsValid() == false`) or a value of
some type with an abstract payload. -/
inductive Val where
  | invalid
  | mk (ty : Ty) (data : Nat)
deriving DecidableEq

/-- `v.IsValid()`. -/
def Val.isValid : Val → Bool
  | Val.invalid => false
  | Val.mk _ _ => true

/-- The type of a valid value; `none` for the zero `Value`. -/
def Val.tyOf : Val → Option Ty
  | Val.invalid => none
  | Val.mk t _ => some t

/-- Whether a value may be assigned to / passed as type `t` — the check
`reflect.Value.Set` and `reflect.Value.Call` panic on: the identical
type, or an interface type the value's type implements. -/
def Val.assignableTo : Val → Ty → Bool
  | Val.invalid, _ => false
  | Val.mk vt _, t =>
      if vt = t then true
      else if t.kind = Kind.interfaceK then vt.implements t
      else false

/-- An `interface{}` argument: `nil`, or a value of some dynamic type. -/
inductive GoAny where
  | nil
  | val (ty : Ty) (data : Nat)
deriving DecidableEq

/-- `reflect.TypeOf`: the nil `Type` (`none`) for a nil interface value. -/
def typeOf : GoAny → Option Ty
  | GoAny.nil => none
  | GoAny.val t _ => some t

/-- `reflect.ValueOf`: the zero `Value` for a nil interface value. -/
def valueOf : GoAny → Val
  | GoAny.nil => Val.invalid
  | GoAny.val t d => Val.mk t d

/-- One entry of the registry map `map[reflect.Type]reflect.Value`. -/
abbrev Entry := Option Ty × Val

/-- `i.values[t]`: map indexing, yielding the zero `Value` when absent. -/
def mapLookup : List Entry → Option Ty → Val
  | [], _ => Val.invalid
  | (k, v) :: rest, t => if k = t then v else mapLookup rest t

/-- Whether the map has an entry under key `t`. -/
def hasKey : List Entry → Option Ty → Bool
  | [], _ => false
  | (k, _) :: rest, t => if k = t then true else hasKey rest t

/-- `i.values[t] = v`: map assignment (overwrite or insert). -/
def mapSet : List Entry → Option Ty → Val → List Entry
  | [], k, v => [(k, v)]
  | (k1, v1) :: rest, k, v =>
      if k1 = k then (k, v) :: rest else (k1, v1) :: mapSet rest k v

/-- The `injector` struct: a `values` map and a nil-able `parent`. -/
inductive Injector where
  | mk (values : List Entry) (parent : Option Injector)

/-- The `values` field. -/
def Injector.values : Injector → List Entry
  | Injector.mk vs _ => vs

/-- The `parent` field. -/
def Injector.parent : Injector → Option Injector
  | Injector.mk _ p => p

/-- `New()`: an injector with an empty map and no parent. -/
def New : Injector := Injector.mk [] none

/-- Outcome of `Get`: a returned `reflect.Value`, or a panic (possible
only when a nil `reflect.Type` is touched). -/
inductive GetRes where
  | panics
  | ret (v : Val)
deriving DecidableEq

/-- The value a non-panicking `Get` returned (the zero `Value` in the
panic case, which for well-formed registries never arises on non-nil
keys, see `Get_ret_exists`). -/
def GetRes.val : GetRes → Val
  | GetRes.panics => Val.invalid
  | GetRes.ret v => v

/-- Outcome of the implementor scan `for k, v := range i.values`. -/
inductive ScanRes where
  | panics
  | found (v : Val)
  | notFound
deriving DecidableEq

/-- The loop `for k, v := range i.values { if k.Implements(t) { val = v;
break } }`.  Hitting an entry whose key is the nil `reflect.Type` panics
(`k.Implements` on a nil interface value). -/
def scan (t : Ty) : List Entry → ScanRes
  | [] => ScanRes.notFound
  | (none, _) :: _ => ScanRes.panics
  | (some k, v) :: rest =>
      if k.implements t then ScanRes.found v else scan t rest

/-- `func (i *injector) Get(t reflect.Type) reflect.Value`:
exact lookup; then, for interface keys, the implementor scan over this
injector's own entries; then parent delegation; otherwise the (invalid)
lookup result is returned as the not-found signal. -/
def Injector.Get : Injector → Option Ty → GetRes
  | Injector.mk vs p, t =>
    let val := mapLookup vs t
    if val.isValid then GetRes.ret val
    else
      match t with
      | none => GetRes.panics
      | some ty =>
        match (if ty.kind = Kind.interfaceK then scan ty vs else ScanRes.notFound) with
        | ScanRes.panics => GetRes.panics
        | ScanRes.found v =>
          if v.isValid then GetRes.ret v
          else
            match p with
            | some par => Injector.Get par t
            | none => GetRes.ret v
        | ScanRes.notFound =>
          match p with
          | some par => Injector.Get par t
          | none => GetRes.ret val

/-- The `reflect.Value` `Get` produces for a non-nil type key. -/
def Injector.get (i : Injector) (t : Ty) : Val :=
  (i.Get (some t)).val

/-- The pointer-dereference loop `for t.Kind() == reflect.Ptr { t = t.Elem() }`. -/
def derefTy : Ty → Ty
  | Ty.ptr _ e => derefTy e
  | t => t

/-- `InterfaceOf(value)`: dereference the type of `value` through any
number of pointer indirections and require an interface type.  `none`
models the panic: the explicit one when the dereferenced type is not an
interface, and the nil-`Type` method-call panic when `value` is nil. -/
def InterfaceOf (w : GoAny) : Option Ty :=
  match typeOf w with
  | none => none
  | some t =>
    let t2 := derefTy t
    if t2.kind = Kind.interfaceK then some t2 else none

/-- `Map(val)`: store `reflect.ValueOf val` under key `reflect.TypeOf val`
and return the injector. -/
def Injector.Map : Injector → GoAny → Injector
  | Injector.mk vs p, v => Injector.mk (mapSet vs (typeOf v) (valueOf v)) p

/-- `MapTo(val, ifacePtr)`: store `reflect.ValueOf val` under the
interface type `InterfaceOf ifacePtr`; `none` models the panic raised by
`InterfaceOf`. -/
def Injector.MapTo : Injector → GoAny → GoAny → Option Injector
  | Injector.mk vs p, v, w =>
    match InterfaceOf w with
    | none => none
    | some t => some (Injector.mk (mapSet vs (some t) (valueOf v)) p)

/-- `Set(typ, val)`: store `val` directly under key `typ`. -/
def Injector.Set : Injector → Option Ty → Val → Injector
  | Injector.mk vs p, k, v => Injector.mk (mapSet vs k v) p

/-- `SetParent(parent)`. -/
def Injector.SetParent : Injector → Injector → Injector
  | Injector.mk vs _, par => Injector.mk vs (some par)

/-- The error values `fmt.Errorf("Value not found for type %v", t)`
produced by `Apply` and `Invoke`. -/
inductive Err where
  | dependencyNotFound (t : Ty)
deriving DecidableEq

/-- One struct field as `Apply` sees it: `f.CanSet()`, whether
`structField.Tag == "inject" || structField.Tag.Get("inject") != ""`
holds, the field's declared type `f.Type()` and its current value. -/
structure FieldInfo where
  canSet : Bool
  injectTag : Bool
  fty : Ty
  fval : Val
deriving DecidableEq

/-- The runtime value handed to `Apply`: a pointer chain ending in a
struct, or ending in any non-struct value (`base`, which also covers the
invalid `Value` produced by dereferencing a nil pointer). -/
inductive Target where
  | ptr (elem : Target)
  | strukt (fields : List FieldInfo)
  | base (v : Val)
deriving DecidableEq

/-- The loop `for v.Kind() == reflect.Ptr { v = v.Elem() }`. -/
def derefTarget : Target → Target
  | Target.ptr t => derefTarget t
  | t => t

/-- `v.Kind() == reflect.Struct` for a dereferenced target. -/
def Target.isStruct : Target → Bool
  | Target.strukt _ => true
  | _ => false

/-- The field loop of `Apply`: for each settable, inject-tagged field,
resolve the field's type via `Get`; on the first failure return the
`Value not found` error at once, leaving the remaining fields untouched;
otherwise `f.Set(v)` overwrites the field with the resolved value —
panicking (outer `none`) when the resolved value is not assignable to
the field's declared type.  The outer `none` also models a panic inside
`Get`. -/
def applyFields (i : Injector) : List FieldInfo → Option (List FieldInfo × Option Err)
  | [] => some ([], none)
  | f :: fs =>
    if f.canSet && f.injectTag then
      match i.Get (some f.fty) with
      | GetRes.panics => none
      | GetRes.ret v =>
        if v.isValid then
          if v.assignableTo f.fty then
            match applyFields i fs with
            | none => none
            | some (fs2, e) =>
                some (FieldInfo.mk f.canSet f.injectTag f.fty v :: fs2, e)
          else none
        else some (f :: fs, some (Err.dependencyNotFound f.fty))
    else
      match applyFields i fs with
      | none => none
      | some (fs2, e) => some (f :: fs2, e)

/-- `func (inj *injector) Apply(val interface{}) error`: dereference the
target; a non-struct target is left untouched with a nil error; a struct
target has its fields injected.  The updated target models the in-place
mutation `f.Set(v)` performs through the pointer chain; the outer `none`
models a panic inside `Get`. -/
def Injector.Apply : Injector → Target → Option (Target × Option Err)
  | i, Target.ptr t =>
    match Injector.Apply i t with
    | none => none
    | some (t2, e) => some (Target.ptr t2, e)
  | i, Target.strukt fs =>
    match applyFields i fs with
    | none => none
    | some (fs2, e) => some (Target.strukt fs2, e)
  | _, t => some (t, none)

/-- A function-like value handed to `Invoke`: its declared parameter
types (`t.In(i)` in order), its declared result types (`t.Out(i)` in
order), and its behaviour under `reflect.Call`.  `call_rets` records the
Go guarantee that a call returns exactly the declared results. -/
structure FuncVal where
  argTypes : List Ty
  retTypes : List Ty
  call : List Val → List Val
  call_rets : ∀ as, (call as).map Val.tyOf = retTypes.map some

/-- The argument loop of `Invoke`: resolve each declared parameter type
via `Get` in order; on the first invalid resolution return the `Value
not found` error for that type.  The outer `none` models a panic inside
`Get`. -/
def resolveArgs (i : Injector) : List Ty → Option (Except Err (List Val))
  | [] => some (Except.ok [])
  | t :: ts =>
    match i.Get (some t) with
    | GetRes.panics => none
    | GetRes.ret v =>
      if v.isValid then
        match resolveArgs i ts with
        | none => none
        | some (Except.error e) => some (Except.error e)
        | some (Except.ok vs) => some (Except.ok (v :: vs))
      else some (Except.error (Err.dependencyNotFound t))

/-- The argument validation `reflect.Value.Call` performs before the
function body runs: every argument must be assignable to its declared
parameter type. -/
def argsAssignable : List Val → List Ty → Bool
  | [], [] => true
  | v :: vs, t :: ts => v.assignableTo t && argsAssignable vs ts
  | _, _ => false

/-- `func (inj *injector) Invoke(f interface{}) ([]reflect.Value, error)`:
resolve every declared parameter in order; if any fails, return the
error before the function is called; otherwise `Call` the function on
the resolved arguments — `Call` validates every argument against its
parameter type and panics (outer `none`) on a non-assignable one, before
the body runs — and return its results.  The outer `none` also models a
panic inside `Get`. -/
def Injector.Invoke (i : Injector) (f : FuncVal) : Option (Except Err (List Val)) :=
  match resolveArgs i f.argTypes with
  | none => none
  | some (Except.error e) => some (Except.error e)
  | some (Except.ok args) =>
      if argsAssignable args f.argTypes then some (Except.ok (f.call args)) else none

/-
State-threaded transcriptions.  Go passes the injector by reference, so
every call could in principle hand back a mutated registry; these
versions of `Get`, `Apply` and `Invoke` make that threading explicit by
returning the registry state alongside the result (rebuilding the state
around the state returned by each inner call).  The frame claim is that
the threaded state always comes back unchanged.
-/

/-- `Get`, with the registry state threaded through the parent call. -/
def Injector.GetSt : Injector → Option Ty → Injector × GetRes
  | Injector.mk vs p, t =>
    let val := mapLookup vs t
    if val.isValid then (Injector.mk vs p, GetRes.ret val)
    else
      match t with
      | none => (Injector.mk vs p, GetRes.panics)
      | some ty =>
        match (if ty.kind = Kind.interfaceK then scan ty vs else ScanRes.notFound) with
        | ScanRes.panics => (Injector.mk vs p, GetRes.panics)
        | ScanRes.found v =>
          if v.isValid then (Injector.mk vs p, GetRes.ret v)
          else
            match p with
            | some par =>
              match Injector.GetSt par t with
              | (par2, r) => (Injector.mk vs (some par2), r)
            | none => (Injector.mk vs p, GetRes.ret v)
        | ScanRes.notFound =>
          match p with
          | some par =>
            match Injector.GetSt par t with
            | (par2, r) => (Injector.mk vs (some par2), r)
          | none => (Injector.mk vs p, GetRes.ret val)

/-- The field loop of `Apply`, with the registry state threaded through
each `Get`. -/
def applyFieldsSt : Injector → List FieldInfo → Injector × Option (List FieldInfo × Option Err)
  | i, [] => (i, some ([], none))
  | i, f :: fs =>
    if f.canSet && f.injectTag then
      match i.GetSt (some f.fty) with
      | (i1, GetRes.panics) => (i1, none)
      | (i1, GetRes.ret v) =>
        if v.isValid then
          if v.assignableTo f.fty then
            match applyFieldsSt i1 fs with
            | (i2, none) => (i2, none)
            | (i2, some (fs2, e)) =>
                (i2, some (FieldInfo.mk f.canSet f.injectTag f.fty v :: fs2, e))
          else (i1, none)
        else (i1, some (f :: fs, some (Err.dependencyNotFound f.fty)))
    else
      match applyFieldsSt i fs with
      | (i2, none) => (i2, none)
      | (i2, some (fs2, e)) => (i2, some (f :: fs2, e))

/-- `Apply`, with the registry state threaded through each `Get`. -/
def Injector.ApplySt : Injector → Target → Injector × Option (Target × Option Err)
  | i, Target.ptr t =>
    match Injector.ApplySt i t with
    | (i1, none) => (i1, none)
    | (i1, some (t2, e)) => (i1, some (Target.ptr t2, e))
  | i, Target.strukt fs =>
    match applyFieldsSt i fs with
    | (i1, none) => (i1, none)
    | (i1, some (fs2, e)) => (i1, some (Target.strukt fs2, e))
  | i, t => (i, some (t, none))

/-- The argument loop of `Invoke`, with the registry state threaded
through each `Get`. -/
def resolveArgsSt : Injector → List Ty → Injector × Option (Except Err (List Val))
  | i, [] => (i, some (Except.ok []))
  | i, t :: ts =>
    match i.GetSt (some t) with
    | (i1, GetRes.panics) => (i1, none)
    | (i1, GetRes.ret v) =>
      if v.isValid then
        match resolveArgsSt i1 ts with
        | (i2, none) => (i2, none)
        | (i2, some (Except.error e)) => (i2, some (Except.error e))
        | (i2, some (Except.ok vs)) => (i2, some (Except.ok (v :: vs)))
      else (i1, some (Except.error (Err.dependencyNotFound t)))

/-- `Invoke`, with the registry state threaded through each `Get`. -/
def Injector.InvokeSt (i : Injector) (f : FuncVal) : Injector × Option (Except Err (List Val)) :=
  match resolveArgsSt i f.argTypes with
  | (i1, none) => (i1, none)
  | (i1, some (Except.error e)) => (i1, some (Except.error e))
  | (i1, some (Except.ok args)) =>
      if argsAssignable args f.argTypes then (i1, some (Except.ok (f.call args)))
      else (i1, none)

/-- An entry as the spec's data model describes it: a real `TypeKey`
(never the nil `reflect.Type`) mapped to a `StoredValue` (a runtime-boxed
value, never the invalid zero `Value`). -/
def validEntry (kv : Entry) : Bool :=
  kv.1.isSome && kv.2.isValid

/-- A registry as the spec's data model describes it: every entry is a
`TypeKey ↦ StoredValue` pair, keys are unique (it is a Go map), and the
parent chain consists of such registries.  States outside this invariant
are reachable only by storing the zero `reflect.Value` or the nil
`reflect.Type` (`Set` with a zero `Value`, `Map(nil)`, ...). -/
inductive WF : Injector → Prop
  | root (vs : List Entry) :
      vs.all validEntry = true → (vs.map Prod.fst).Nodup →
      WF (Injector.mk vs none)
  | child (vs : List Entry) (p : Injector) :
      vs.all validEntry = true → (vs.map Prod.fst).Nodup →
      WF p → WF (Injector.mk vs (some p))

/-
Helper lemmas.
-/

@[simp]
theorem Injector.values_mk (vs : List Entry) (p : Option Injector) :
    (Injector.mk vs p).values = vs := rfl

@[simp]
theorem Injector.parent_mk (vs : List Entry) (p : Option Injector) :
    (Injector.mk vs p).parent = p := rfl

theorem Injector.eta (i : Injector) : Injector.mk i.values i.parent = i := by
  cases i
  rfl

@[simp]
theorem Val.isValid_invalid : Val.invalid.isValid = false := rfl

@[simp]
theorem Val.isValid_mk (t : Ty) (d : Nat) : (Val.mk t d).isValid = true := rfl

theorem mapLookup_mapSet_self (vs : List Entry) (k : Option Ty) (v : Val) :
    mapLookup (mapSet vs k v) k = v := by
  induction vs with
  | nil => simp [mapSet, mapLookup]
  | cons kv rest ih =>
    obtain ⟨k1, v1⟩ := kv
    by_cases h : k1 = k
    · simp [mapSet, mapLookup, h]
    · simp [mapSet, mapLookup, h, ih]

theorem mapLookup_of_hasKey_false (vs : List Entry) (t : Option Ty)
    (h : hasKey vs t = false) : mapLookup vs t = Val.invalid := by
  induction vs with
  | nil => rfl
  | cons kv rest ih =>
    obtain ⟨k1, v1⟩ := kv
    by_cases hk : k1 = t
    · simp [hasKey, hk] at h
    · simp [hasKey, hk] at h
      simp [mapLookup, hk, ih h]

theorem mapLookup_valid_of_hasKey (vs : List Entry) (t : Option Ty)
    (hall : vs.all validEntry = true) (h : hasKey vs t = true) :
    (mapLookup vs t).isValid = true := by
  induction vs with
  | nil => simp [hasKey] at h
  | cons kv rest ih =>
    obtain ⟨k1, v1⟩ := kv
    simp only [List.all_cons, Bool.and_eq_true] at hall
    have hv1 : v1.isValid = true := by
      have h1 := hall.1
      simp only [validEntry, Bool.and_eq_true] at h1
      exact h1.2
    by_cases hk : k1 = t
    · simpa [mapLookup, hk] using hv1
    · simp only [hasKey, if_neg hk] at h
      simp [mapLookup, hk, ih hall.2 h]

theorem mapSet_all_valid (vs : List Entry) (k : Option Ty) (v : Val)
    (hall : vs.all validEntry = true) (hv : validEntry (k, v) = true) :
    (mapSet vs k v).all validEntry = true := by
  induction vs with
  | nil => simpa [mapSet]
  | cons kv rest ih =>
    obtain ⟨k1, v1⟩ := kv
    simp only [List.all_cons, Bool.and_eq_true] at hall
    by_cases hk : k1 = k
    · simp [mapSet, hk, hv, List.all_cons, hall.2]
    · simp [mapSet, hk, List.all_cons, hall.1, ih hall.2]

theorem scan_ne_panics (I : Ty) (vs : List Entry)
    (hall : vs.all validEntry = true) : scan I vs ≠ ScanRes.panics := by
  induction vs with
  | nil => simp [scan]
  | cons kv rest ih =>
    obtain ⟨k1, v1⟩ := kv
    simp only [List.all_cons, Bool.and_eq_true] at hall
    cases k1 with
    | none => simp [validEntry] at hall
    | some k =>
      by_cases hk : k.implements I = true
      · simp [scan, hk]
      · simp only [Bool.not_eq_true] at hk
        simpa [scan, hk] using ih hall.2

theorem scan_found_valid (I : Ty) (vs : List Entry) (v : Val)
    (hall : vs.all validEntry = true) (h : scan I vs = ScanRes.found v) :
    v.isValid = true := by
  induction vs with
  | nil => simp [scan] at h
  | cons kv rest ih =>
    obtain ⟨k1, v1⟩ := kv
    simp only [List.all_cons, Bool.and_eq_true] at hall
    cases k1 with
    | none => simp [validEntry] at hall
    | some k =>
      by_cases hk : k.implements I = true
      · simp only [scan, hk, if_true, ScanRes.found.injEq] at h
        subst h
        have h1 := hall.1
        simp only [validEntry, Bool.and_eq_true] at h1
        exact h1.2
      · simp only [Bool.not_eq_true] at hk
        simp only [scan, hk, Bool.false_eq_true, if_false] at h
        exact ih hall.2 h

theorem scan_first (I : Ty) (pre rest : List Entry) (k : Ty) (v : Val)
    (hpre : ∀ kv ∈ pre, ∃ k2, kv.1 = some k2 ∧ k2.implements I = false)
    (himpl : k.implements I = true) :
    scan I (pre ++ (some k, v) :: rest) = ScanRes.found v := by
  induction pre with
  | nil => simp [scan, himpl]
  | cons kv pre2 ih =>
    obtain ⟨k1, v1⟩ := kv
    obtain ⟨k2, hk2, himp2⟩ := hpre (k1, v1) (by simp)
    simp only at hk2
    subst hk2
    simp only [List.cons_append, scan, himp2, Bool.false_eq_true, if_false]
    exact ih (fun kv hkv => hpre kv (by simp [hkv]))

theorem scan_unique (I : Ty) (vs : List Entry) (k0 : Ty)
    (hall : vs.all validEntry = true)
    (hk : hasKey vs (some k0) = true)
    (himpl : k0.implements I = true)
    (hothers : ∀ kv ∈ vs, kv.1 ≠ some k0 → ∀ k2, kv.1 = some k2 → k2.implements I = false) :
    scan I vs = ScanRes.found (mapLookup vs (some k0)) := by
  induction vs with
  | nil => simp [hasKey] at hk
  | cons kv rest ih =>
    obtain ⟨k1, v1⟩ := kv
    simp only [List.all_cons, Bool.and_eq_true] at hall
    cases k1 with
    | none => simp [validEntry] at hall
    | some k =>
      by_cases hkk : k = k0
      · subst hkk
        simp [scan, himpl, mapLookup]
      · have hne : (some k : Option Ty) ≠ some k0 := by simpa using hkk
        have himp1 := hothers (some k, v1) (by simp) hne k rfl
        simp only [scan, himp1, Bool.false_eq_true, if_false]
        simp only [hasKey, if_neg hne] at hk
        rw [mapLookup, if_neg hne]
        exact ih hall.2 hk (fun kv hkv => hothers kv (by simp [hkv]))

theorem WF_all (i : Injector) (h : WF i) : i.values.all validEntry = true := by
  cases h with
  | root vs h1 h2 => exact h1
  | child vs q h1 h2 hq => exact h1

theorem WF_parent (i p : Injector) (h : WF i) (hp : i.parent = some p) : WF p := by
  cases h with
  | root vs h1 h2 => simp at hp
  | child vs q h1 h2 hq =>
    simp only [Injector.parent_mk, Option.some.injEq] at hp
    rwa [hp] at hq

theorem Get_exact (vs : List Entry) (p : Option Injector) (t : Option Ty)
    (h : (mapLookup vs t).isValid = true) :
    Injector.Get (Injector.mk vs p) t = GetRes.ret (mapLookup vs t) := by
  cases p <;> cases t <;> (rw [Injector.Get]; simp [h])

theorem Get_scan_found (vs : List Entry) (p : Option Injector) (ty : Ty) (v : Val)
    (hmiss : mapLookup vs (some ty) = Val.invalid)
    (hk : ty.kind = Kind.interfaceK)
    (hs : scan ty vs = ScanRes.found v)
    (hv : v.isValid = true) :
    Injector.Get (Injector.mk vs p) (some ty) = GetRes.ret v := by
  cases p <;> (rw [Injector.Get]; simp [hmiss, hk, hs, hv])

theorem Get_unresolved (vs : List Entry) (p : Option Injector) (ty : Ty)
    (hmiss : mapLookup vs (some ty) = Val.invalid)
    (hscan : ty.kind = Kind.interfaceK → scan ty vs = ScanRes.notFound) :
    Injector.Get (Injector.mk vs p) (some ty) =
      (match p with
       | some par => Injector.Get par (some ty)
       | none => GetRes.ret Val.invalid) := by
  by_cases hk : ty.kind = Kind.interfaceK
  · cases p <;> (rw [Injector.Get]; simp [hmiss, hk, hscan hk])
  · cases p <;> (rw [Injector.Get]; simp [hmiss, hk])

theorem Get_ret_exists : ∀ (i : Injector) (ty : Ty), WF i →
    ∃ v, Injector.Get i (some ty) = GetRes.ret v
  | Injector.mk vs none, ty, h => by
    have hall : vs.all validEntry = true := WF_all _ h
    rw [Injector.Get]
    by_cases hv : (mapLookup vs (some ty)).isValid = true
    · exact ⟨mapLookup vs (some ty), by simp [hv]⟩
    · simp only [Bool.not_eq_true] at hv
      rcases hsc : (if ty.kind = Kind.interfaceK then scan ty vs else ScanRes.notFound) with _ | w | _
      · exfalso
        by_cases hk : ty.kind = Kind.interfaceK
        · rw [if_pos hk] at hsc
          exact scan_ne_panics ty vs hall hsc
        · rw [if_neg hk] at hsc
          simp at hsc
      · by_cases hw : w.isValid = true
        · exact ⟨w, by simp [hv, hsc, hw]⟩
        · simp only [Bool.not_eq_true] at hw
          exact ⟨w, by simp [hv, hsc, hw]⟩
      · exact ⟨mapLookup vs (some ty), by simp [hv, hsc]⟩
  | Injector.mk vs (some par), ty, h => by
    have hall : vs.all validEntry = true := WF_all _ h
    have hpar : WF par := WF_parent _ par h rfl
    obtain ⟨w2, hw2⟩ := Get_ret_exists par ty hpar
    rw [Injector.Get]
    by_cases hv : (mapLookup vs (some ty)).isValid = true
    · exact ⟨mapLookup vs (some ty), by simp [hv]⟩
    · simp only [Bool.not_eq_true] at hv
      rcases hsc : (if ty.kind = Kind.interfaceK then scan ty vs else ScanRes.notFound) with _ | w | _
      · exfalso
        by_cases hk : ty.kind = Kind.interfaceK
        · rw [if_pos hk] at hsc
          exact scan_ne_panics ty vs hall hsc
        · rw [if_neg hk] at hsc
          simp at hsc
      · by_cases hw : w.isValid = true
        · exact ⟨w, by simp [hv, hsc, hw]⟩
        · simp only [Bool.not_eq_true] at hw
          exact ⟨w2, by simp [hv, hsc, hw, hw2]⟩
      · exact ⟨w2, by simp [hv, hsc, hw2]⟩

theorem Get_valid_ret (i : Injector) (t : Ty) (h : (i.get t).isValid = true) :
    Injector.Get i (some t) = GetRes.ret (i.get t) := by
  rcases hg : Injector.Get i (some t) with _ | v
  · rw [Injector.get, hg] at h
    simp [GetRes.val] at h
  · rw [Injector.get, hg]
    simp [GetRes.val]

theorem Map_values (i : Injector) (v : GoAny) :
    (i.Map v).values = mapSet i.values (typeOf v) (valueOf v) := by
  cases i
  rfl

theorem Map_parent (i : Injector) (v : GoAny) : (i.Map v).parent = i.parent := by
  cases i
  rfl

theorem Set_values (i : Injector) (k : Option Ty) (v : Val) :
    (i.Set k v).values = mapSet i.values k v := by
  cases i
  rfl

theorem Set_parent (i : Injector) (k : Option Ty) (v : Val) :
    (i.Set k v).parent = i.parent := by
  cases i
  rfl

theorem GetSt_fst : ∀ (i : Injector) (t : Option Ty), (Injector.GetSt i t).1 = i
  | Injector.mk vs none, t => by
    rcases t with _ | ty <;> rw [Injector.GetSt] <;> (repeat' split) <;> rfl
  | Injector.mk vs (some par), t => by
    have ih := GetSt_fst par t
    rcases hpt : Injector.GetSt par t with ⟨par2, r⟩
    rw [hpt] at ih
    simp only at ih
    subst ih
    rcases t with _ | ty <;> rw [Injector.GetSt] <;> (try rw [hpt]) <;>
      (repeat' split) <;>
      first
        | rfl
        | simp_all

/-- The state-threaded `Get` computes the same result as `Get`. -/
theorem GetSt_snd : ∀ (i : Injector) (t : Option Ty), (Injector.GetSt i t).2 = Injector.Get i t
  | Injector.mk vs none, t => by
    rcases t with _ | ty <;> rw [Injector.GetSt, Injector.Get] <;> (repeat' split) <;> rfl
  | Injector.mk vs (some par), t => by
    have ih := GetSt_snd par t
    rcases hpt : Injector.GetSt par t with ⟨par2, r⟩
    rw [hpt] at ih
    simp only at ih
    subst ih
    rcases t with _ | ty <;> rw [Injector.GetSt, Injector.Get] <;> (try rw [hpt]) <;>
      (repeat' split) <;>
      first
        | rfl
        | simp_all

theorem applyFieldsSt_fst (i : Injector) (fs : List FieldInfo) :
    (applyFieldsSt i fs).1 = i := by
  induction fs generalizing i with
  | nil => rfl
  | cons f rest ih =>
    rcases hg : i.GetSt (some f.fty) with ⟨i1, r⟩
    have hi1 : i1 = i := by
      have h2 := GetSt_fst i (some f.fty)
      rw [hg] at h2
      exact h2
    rcases hrest : applyFieldsSt i1 rest with ⟨i2, res⟩
    have hi2 : i2 = i1 := by
      have h3 := ih i1
      rw [hrest] at h3
      exact h3
    rw [hi1] at hg hrest hi2
    rw [applyFieldsSt, hg]
    by_cases hc : (f.canSet && f.injectTag) = true
    · rcases r with _ | v
      · simp [hc]
      · by_cases hv : v.isValid = true
        · by_cases ha : v.assignableTo f.fty = true
          · rcases res with _ | ⟨fs2, e⟩ <;> simp [hc, hv, ha, hrest, hi2]
          · simp [hc, hv, ha]
        · simp [hc, hv]
    · rcases res with _ | ⟨fs2, e⟩ <;>
        simp [hc, hrest, hi2]

theorem ApplySt_fst (i : Injector) (v : Target) : (i.ApplySt v).1 = i := by
  induction v generalizing i with
  | ptr t ih =>
    rcases ht : Injector.ApplySt i t with ⟨i1, res⟩
    have hi1 : i1 = i := by
      have h2 := ih i
      rw [ht] at h2
      exact h2
    rw [Injector.ApplySt, ht]
    rcases res with _ | ⟨t2, e⟩ <;> simp [hi1]
  | strukt fs =>
    rcases hf : applyFieldsSt i fs with ⟨i1, res⟩
    have hi1 : i1 = i := by
      have h2 := applyFieldsSt_fst i fs
      rw [hf] at h2
      exact h2
    rw [Injector.ApplySt, hf]
    rcases res with _ | ⟨fs2, e⟩ <;> simp [hi1]
  | base w => rfl

theorem resolveArgsSt_fst (i : Injector) (ts : List Ty) :
    (resolveArgsSt i ts).1 = i := by
  induction ts generalizing i with
  | nil => rfl
  | cons t rest ih =>
    rcases hg : i.GetSt (some t) with ⟨i1, r⟩
    have hi1 : i1 = i := by
      have h2 := GetSt_fst i (some t)
      rw [hg] at h2
      exact h2
    rcases hrest : resolveArgsSt i1 rest with ⟨i2, res⟩
    have hi2 : i2 = i1 := by
      have h3 := ih i1
      rw [hrest] at h3
      exact h3
    rw [hi1] at hg hrest hi2
    rw [resolveArgsSt, hg]
    rcases r with _ | v
    · simp
    · by_cases hv : v.isValid = true
      · rcases res with _ | e2
        · simp [hv, hrest, hi2]
        · rcases e2 with e | vs2 <;> simp [hv, hrest, hi2]
      · simp [hv]

theorem InvokeSt_fst (i : Injector) (f : FuncVal) : (i.InvokeSt f).1 = i := by
  rcases hr : resolveArgsSt i f.argTypes with ⟨i1, res⟩
  have hi1 : i1 = i := by
    have h2 := resolveArgsSt_fst i f.argTypes
    rw [hr] at h2
    exact h2
  rw [Injector.InvokeSt, hr]
  rcases res with _ | e2
  · simpa using hi1
  · rcases e2 with e | vs2
    · simp [hi1]
    · by_cases ha : argsAssignable vs2 f.argTypes = true <;> simp [hi1, ha]

theorem Apply_nonStruct (i : Injector) (v : Target)
    (h : (derefTarget v).isStruct = false) :
    Injector.Apply i v = some (v, none) := by
  induction v with
  | ptr t ih =>
    rw [Injector.Apply]
    rw [ih (by simpa [derefTarget] using h)]
  | strukt fs => simp [derefTarget, Target.isStruct] at h
  | base w => rfl

theorem hasKey_mapSet_self (vs : List Entry) (k : Option Ty) (v : Val) :
    hasKey (mapSet vs k v) k = true := by
  induction vs with
  | nil => simp [mapSet, hasKey]
  | cons kv rest ih =>
    obtain ⟨k1, v1⟩ := kv
    by_cases h : k1 = k
    · simp [mapSet, hasKey, h]
    · simp [mapSet, hasKey, h, ih]

/-- An entry whose key is a real type that does not implement `I`. -/
def notImplementor (I : Ty) (kv : Entry) : Bool :=
  match kv.1 with
  | none => false
  | some k => !(k.implements I)

theorem notImplementor_spec (I : Ty) (kv : Entry) (h : notImplementor I kv = true) :
    ∃ k2, kv.1 = some k2 ∧ k2.implements I = false := by
  rcases kv with ⟨k, v⟩
  cases k with
  | none => simp [notImplementor] at h
  | some k2 =>
    refine ⟨k2, rfl, ?_⟩
    simpa [notImplementor] using h

/-- An entry that either has key `some ct` or does not implement `I`. -/
def otherNotImplementor (I ct : Ty) (kv : Entry) : Bool :=
  if kv.1 = some ct then true else notImplementor I kv

/-
Concrete fixtures used by the witnesses and counterexamples.
-/

def tyA : Ty := Ty.conc "A" ["Foo"]

def tyB : Ty := Ty.conc "B" []

def tyT0 : Ty := Ty.conc "T0" []

def ifaceI : Ty := Ty.iface "I" ["Foo"]

def vA : Val := Val.mk tyA 1

def vB : Val := Val.mk tyB 2

/-
The claims.
-/

/-- Claim C1: for every registry (in the spec's data model: real type
keys mapped to boxed stored values, `WF`) and every requested type key
`T`, `Get` resolves in this fixed order: (1) an entry under exactly `T`
in the registry's own map is returned immediately; (2) otherwise, only
when `T` is an interface type, the registry's own entries are scanned
and an implementor of `T` is returned if one exists; (3) only if still
unresolved is `Get` applied recursively to the parent with the same key,
and if there is no parent the invalid (not-found) value is returned. -/
theorem claim_C1 (i : Injector) (T : Ty) (hwf : WF i) :
    (hasKey i.values (some T) = true →
       Injector.Get i (some T) = GetRes.ret (mapLookup i.values (some T)))
    ∧ (hasKey i.values (some T) = false → T.kind = Kind.interfaceK →
       ∀ v, scan T i.values = ScanRes.found v →
         Injector.Get i (some T) = GetRes.ret v)
    ∧ (hasKey i.values (some T) = false →
       (T.kind = Kind.interfaceK → scan T i.values = ScanRes.notFound) →
       ∀ p, i.parent = some p →
         Injector.Get i (some T) = Injector.Get p (some T))
    ∧ (hasKey i.values (some T) = false →
       (T.kind = Kind.interfaceK → scan T i.values = ScanRes.notFound) →
       i.parent = none →
       Injector.Get i (some T) = GetRes.ret Val.invalid) := by
  obtain ⟨vs, p⟩ := i
  have hall : vs.all validEntry = true := WF_all _ hwf
  refine ⟨?_, ?_, ?_, ?_⟩
  · intro hk
    exact Get_exact vs p (some T) (mapLookup_valid_of_hasKey vs (some T) hall hk)
  · intro hk hkind v hs
    exact Get_scan_found vs p T v (mapLookup_of_hasKey_false vs (some T) hk) hkind hs
      (scan_found_valid T vs v hall hs)
  · intro hk hsc q hq
    simp only [Injector.parent_mk] at hq
    subst hq
    simpa using Get_unresolved vs (some q) T (mapLookup_of_hasKey_false vs (some T) hk) hsc
  · intro hk hsc hq
    simp only [Injector.parent_mk] at hq
    subst hq
    simpa using Get_unresolved vs none T (mapLookup_of_hasKey_false vs (some T) hk) hsc

theorem claim_C1_witness :
    Injector.Get (Injector.mk [(some tyA, vA)] none) (some tyA) = GetRes.ret vA
    ∧ Injector.Get (Injector.mk [(some tyB, vB)] none) (some ifaceI) = GetRes.ret Val.invalid := by
  constructor
  · have h := (claim_C1 (Injector.mk [(some tyA, vA)] none) tyA
      (WF.root _ (by decide) (by decide))).1 (by decide)
    rw [h]
    decide
  · exact (claim_C1 (Injector.mk [(some tyB, vB)] none) ifaceI
      (WF.root _ (by decide) (by decide))).2.2.2 (by decide) (fun _ => by decide) rfl

/-- Claim C3 counterexample: the state reached by `Set(T0, zeroValue)`
(one `Set` call storing the zero `reflect.Value`) maps `T0` to a stored
value, yet `Get(T0)` returns exactly the same invalid not-found result
as on the fresh registry where `T0` was never mapped — the two states
are indistinguishable to a caller, refuting the claim for states
reachable by `Map`/`MapTo`/`Set` calls. -/
theorem claim_C3_counterexample :
    hasKey (Injector.Set New (some tyT0) Val.invalid).values (some tyT0) = true
    ∧ Injector.Get (Injector.Set New (some tyT0) Val.invalid) (some tyT0)
        = GetRes.ret Val.invalid
    ∧ Injector.Get New (some tyT0) = GetRes.ret Val.invalid := by
  refine ⟨by decide, by decide, by decide⟩

/-- Claim C3 (amended): for every registry state whose entries all hold
valid stored values under real type keys (which holds for any sequence
of `Map`/`MapTo`/`Set` calls that never stores the zero `reflect.Value`
or a nil type, `WF`), the not-found result is distinct from every stored
value: no stored value is the invalid signal, and `Get` on any mapped
key — even one mapped to a zero value of its type — reports a valid
(found) result. -/
theorem claim_C3_amended (i : Injector) (T : Ty) (hwf : WF i) :
    (∀ kv ∈ i.values, kv.2.isValid = true)
    ∧ (hasKey i.values (some T) = true →
        Injector.Get i (some T) = GetRes.ret (mapLookup i.values (some T))
        ∧ (mapLookup i.values (some T)).isValid = true) := by
  have hall : i.values.all validEntry = true := WF_all _ hwf
  constructor
  · intro kv hkv
    have h := List.all_eq_true.mp hall kv hkv
    simp only [validEntry, Bool.and_eq_true] at h
    exact h.2
  · intro hk
    obtain ⟨vs, p⟩ := i
    refine ⟨Get_exact vs p (some T) ?_, ?_⟩
    · exact mapLookup_valid_of_hasKey vs (some T) hall hk
    · exact mapLookup_valid_of_hasKey vs (some T) hall hk

theorem claim_C3_amended_witness :
    Injector.Get (Injector.mk [(some tyB, Val.mk tyB 0)] none) (some tyB)
      = GetRes.ret (Val.mk tyB 0)
    ∧ (Val.mk tyB 0).isValid = true := by
  have h := (claim_C3_amended (Injector.mk [(some tyB, Val.mk tyB 0)] none) tyB
    (WF.root _ (by decide) (by decide))).2 (by decide)
  constructor
  · rw [h.1]
    decide
  · decide

/-- Claim C2: for every interface type `I` with no exact entry under `I`
(registry in the spec's data model, `WF`): (a) `Get(I)` returns the
first stored value whose concrete type implements `I` — decomposing the
entry list as `pre ++ implementor :: rest` with nothing in `pre`
implementing `I`; (b) in particular, after `Set`-ing a concrete value
under its concrete type `ct`, `Get(I)` returns that value whenever `ct`
implements `I` and no other mapped entry implements `I`. -/
theorem claim_C2 :
    (∀ (i : Injector) (I : Ty) (pre rest : List Entry) (k : Ty) (v : Val),
       WF i → I.kind = Kind.interfaceK →
       i.values = pre ++ (some k, v) :: rest →
       hasKey i.values (some I) = false →
       pre.all (notImplementor I) = true →
       k.implements I = true →
       Injector.Get i (some I) = GetRes.ret v ∧ v.isValid = true)
    ∧ (∀ (i : Injector) (I ct : Ty) (d : Nat),
       WF i → I.kind = Kind.interfaceK →
       hasKey (Injector.Set i (some ct) (Val.mk ct d)).values (some I) = false →
       ct.implements I = true →
       (Injector.Set i (some ct) (Val.mk ct d)).values.all (otherNotImplementor I ct) = true →
       Injector.Get (Injector.Set i (some ct) (Val.mk ct d)) (some I)
         = GetRes.ret (Val.mk ct d)) := by
  constructor
  · intro i I pre rest k v hwf hkind hvs hk hpre himpl
    obtain ⟨vs, p⟩ := i
    simp only [Injector.values_mk] at hvs hk
    subst hvs
    have hall : (pre ++ (some k, v) :: rest).all validEntry = true := WF_all _ hwf
    have hs : scan I (pre ++ (some k, v) :: rest) = ScanRes.found v := by
      refine scan_first I pre rest k v ?_ himpl
      intro kv hkv
      exact notImplementor_spec I kv (List.all_eq_true.mp hpre kv hkv)
    have hv : v.isValid = true := scan_found_valid I _ v hall hs
    exact ⟨Get_scan_found _ p I v (mapLookup_of_hasKey_false _ (some I) hk) hkind hs hv, hv⟩
  · intro i I ct d hwf hkind hk himpl hothers
    obtain ⟨vs, p⟩ := i
    have hall : vs.all validEntry = true := WF_all _ hwf
    have hall2 : (mapSet vs (some ct) (Val.mk ct d)).all validEntry = true :=
      mapSet_all_valid vs (some ct) (Val.mk ct d) hall rfl
    simp only [Injector.Set, Injector.values_mk] at hk hothers
    have hself : hasKey (mapSet vs (some ct) (Val.mk ct d)) (some ct) = true :=
      hasKey_mapSet_self vs (some ct) (Val.mk ct d)
    have hlook : mapLookup (mapSet vs (some ct) (Val.mk ct d)) (some ct) = Val.mk ct d :=
      mapLookup_mapSet_self vs (some ct) (Val.mk ct d)
    have hs : scan I (mapSet vs (some ct) (Val.mk ct d))
        = ScanRes.found (mapLookup (mapSet vs (some ct) (Val.mk ct d)) (some ct)) := by
      refine scan_unique I _ ct hall2 hself himpl ?_
      intro kv hkv hne k2 hk2
      have h2 := List.all_eq_true.mp hothers kv hkv
      rw [otherNotImplementor, if_neg hne] at h2
      obtain ⟨k3, hk3, himp3⟩ := notImplementor_spec I kv h2
      rw [hk2] at hk3
      simp only [Option.some.injEq] at hk3
      rw [hk3]
      exact himp3
    rw [hlook] at hs
    exact Get_scan_found _ p I (Val.mk ct d)
      (mapLookup_of_hasKey_false _ (some I) hk) hkind hs rfl

theorem claim_C2_witness :
    Injector.Get (Injector.mk [(some tyB, vB), (some tyA, vA)] none) (some ifaceI)
      = GetRes.ret vA
    ∧ Injector.Get (Injector.Set (Injector.mk [(some tyB, vB)] none) (some tyA) (Val.mk tyA 1))
        (some ifaceI) = GetRes.ret (Val.mk tyA 1) := by
  constructor
  · exact (claim_C2.1 (Injector.mk [(some tyB, vB), (some tyA, vA)] none) ifaceI
      [(some tyB, vB)] [] tyA vA
      (WF.root _ (by decide) (by decide)) (by decide) rfl (by decide) (by decide) (by decide)).1
  · exact claim_C2.2 (Injector.mk [(some tyB, vB)] none) ifaceI tyA 1
      (WF.root _ (by decide) (by decide)) (by decide) (by decide) (by decide) (by decide)

/-- Claim C6 counterexample: `nil` is a possible input value, and for it
the claim fails: `Map(nil)` stores the zero `Value` under the nil type
key, and `Get` applied to `nil`'s runtime type (the nil `reflect.Type`)
panics at `t.Kind()` instead of returning the value with a found
signal (the stored value is the invalid zero `Value` in any case). -/
theorem claim_C6_counterexample :
    Injector.Get (Injector.Map New GoAny.nil) (typeOf GoAny.nil) = GetRes.panics
    ∧ (valueOf GoAny.nil).isValid = false := by
  refine ⟨by decide, by decide⟩

/-- Claim C6 (amended): for every non-nil input value `v`, after
`Map(v)` on any registry, `Get` applied to `v`'s runtime type returns
`v` with the found signal. -/
theorem claim_C6_amended (i : Injector) (t : Ty) (d : Nat) :
    Injector.Get (Injector.Map i (GoAny.val t d)) (typeOf (GoAny.val t d))
      = GetRes.ret (valueOf (GoAny.val t d))
    ∧ (valueOf (GoAny.val t d)).isValid = true := by
  obtain ⟨vs, p⟩ := i
  refine ⟨?_, rfl⟩
  · have hl : mapLookup (mapSet vs (some t) (Val.mk t d)) (some t) = Val.mk t d :=
      mapLookup_mapSet_self vs (some t) (Val.mk t d)
    have h := Get_exact (mapSet vs (some t) (Val.mk t d)) p (some t) (by rw [hl]; rfl)
    rw [hl] at h
    exact h

/-- Claim C7: for every child registry (in the spec's data model, `WF`)
with a parent set: if the child has no entry for `T` and, for interface
`T`, no interface-satisfying entry, then `child.Get(T)` is exactly the
parent's `Get(T)` — in particular it returns the parent's value when the
parent resolves `T`; and if the child does have a value for `T`, the
child's value is returned, taking precedence over the parent. -/
theorem claim_C7 (c p : Injector) (T : Ty) (hwf : WF c) (hpar : c.parent = some p) :
    (hasKey c.values (some T) = false →
     (T.kind = Kind.interfaceK → scan T c.values = ScanRes.notFound) →
     Injector.Get c (some T) = Injector.Get p (some T))
    ∧ (hasKey c.values (some T) = true →
       Injector.Get c (some T) = GetRes.ret (mapLookup c.values (some T))) := by
  obtain ⟨vs, q⟩ := c
  simp only [Injector.parent_mk] at hpar
  subst hpar
  have hall : vs.all validEntry = true := WF_all _ hwf
  constructor
  · intro hk hsc
    simpa using Get_unresolved vs (some p) T (mapLookup_of_hasKey_false vs (some T) hk) hsc
  · intro hk
    exact Get_exact vs (some p) (some T) (mapLookup_valid_of_hasKey vs (some T) hall hk)

theorem claim_C7_witness :
    Injector.Get (Injector.mk [] (some (Injector.mk [(some tyA, vA)] none))) (some tyA)
      = GetRes.ret vA
    ∧ Injector.Get
        (Injector.mk [(some tyA, Val.mk tyA 9)] (some (Injector.mk [(some tyA, vA)] none)))
        (some tyA) = GetRes.ret (Val.mk tyA 9) := by
  constructor
  · have h := (claim_C7 (Injector.mk [] (some (Injector.mk [(some tyA, vA)] none)))
      (Injector.mk [(some tyA, vA)] none) tyA
      (WF.child _ _ (by decide) (by decide) (WF.root _ (by decide) (by decide))) rfl).1
      (by decide) (fun hf => by decide)
    rw [h]
    decide
  · have h := (claim_C7
      (Injector.mk [(some tyA, Val.mk tyA 9)] (some (Injector.mk [(some tyA, vA)] none)))
      (Injector.mk [(some tyA, vA)] none) tyA
      (WF.child _ _ (by decide) (by decide) (WF.root _ (by decide) (by decide))) rfl).2
      (by decide)
    rw [h]
    decide

theorem resolveArgs_ok (i : Injector) (ts : List Ty)
    (h : ∀ t ∈ ts, (i.get t).isValid = true) :
    resolveArgs i ts = some (Except.ok (ts.map i.get)) := by
  induction ts with
  | nil => rfl
  | cons t rest ih =>
    have ht : (i.get t).isValid = true := h t (by simp)
    rw [resolveArgs, Get_valid_ret i t ht]
    rw [ih (fun u hu => h u (by simp [hu]))]
    simp [ht]

theorem resolveArgs_err (i : Injector) (pre : List Ty) (bad : Ty) (rest : List Ty)
    (hpre : ∀ u ∈ pre, (i.get u).isValid = true)
    (hfail : Injector.Get i (some bad) = GetRes.ret Val.invalid) :
    resolveArgs i (pre ++ bad :: rest)
      = some (Except.error (Err.dependencyNotFound bad)) := by
  induction pre with
  | nil =>
    rw [List.nil_append, resolveArgs, hfail]
    simp
  | cons u pre2 ih =>
    have hu : (i.get u).isValid = true := hpre u (by simp)
    rw [List.cons_append, resolveArgs, Get_valid_ret i u hu]
    rw [ih (fun u2 hu2 => hpre u2 (by simp [hu2]))]
    simp [hu]

def funF : FuncVal :=
  FuncVal.mk [tyA] [tyB] (fun _ => [vB]) (fun _ => rfl)

def funG : FuncVal :=
  FuncVal.mk [tyT0] [] (fun _ => []) (fun _ => rfl)

/-- Claim C4 counterexample: at the registry reached by
`Set(tyA, vB)` — a value of type `B` stored under key `A` — the single
parameter type `tyA` of `funF` resolves via `Get` to a valid value, so
the claim asserts `funF` is invoked and its results returned; but the
resolved argument is not assignable to the parameter type, so
`reflect.Call` panics (`none`) and no results are ever returned. -/
theorem claim_C4_counterexample :
    ((Injector.Set New (some tyA) vB).get tyA).isValid = true
    ∧ funF.argTypes = [tyA]
    ∧ Injector.Invoke (Injector.Set New (some tyA) vB) funF = none := by
  refine ⟨by decide, rfl, rfl⟩

/-- Claim C4 (amended): for every registry and function-like input `f`:
if every declared parameter type of `f` resolves via `Get` and every
resolved argument is assignable to its declared parameter type (the
check `reflect.Call` performs; a mismatched value stored via
`Set`/`MapTo` fails it and makes `Call` panic instead), `f` is invoked
once on the resolved arguments in declaration order and `Invoke` returns
its results, preserving the declared return arity and types; if the
parameter at some position fails to resolve (the earlier ones
resolving), `Invoke` returns the dependency-not-found error for that
type before any call, and the function body is never executed: the
result is the same for every function with the same parameter list,
whatever its body and return types. -/
theorem claim_C4 (i : Injector) (f : FuncVal) :
    ((∀ t ∈ f.argTypes, (i.get t).isValid = true) →
     argsAssignable (f.argTypes.map i.get) f.argTypes = true →
       Injector.Invoke i f = some (Except.ok (f.call (f.argTypes.map i.get)))
       ∧ (f.call (f.argTypes.map i.get)).length = f.retTypes.length
       ∧ (f.call (f.argTypes.map i.get)).map Val.tyOf = f.retTypes.map some)
    ∧ (∀ pre bad rest, f.argTypes = pre ++ bad :: rest →
       (∀ u ∈ pre, (i.get u).isValid = true) →
       Injector.Get i (some bad) = GetRes.ret Val.invalid →
       Injector.Invoke i f = some (Except.error (Err.dependencyNotFound bad))
       ∧ ∀ g : FuncVal, g.argTypes = f.argTypes →
           Injector.Invoke i g = some (Except.error (Err.dependencyNotFound bad))) := by
  constructor
  · intro h hassign
    have hr := resolveArgs_ok i f.argTypes h
    have hts := f.call_rets (f.argTypes.map i.get)
    refine ⟨?_, ?_, hts⟩
    · rw [Injector.Invoke, hr]
      simp [hassign]
    · have hlen := congrArg List.length hts
      simpa using hlen
  · intro pre bad rest hargs hpre hfail
    constructor
    · rw [Injector.Invoke, hargs, resolveArgs_err i pre bad rest hpre hfail]
    · intro g hg
      rw [Injector.Invoke, hg, hargs, resolveArgs_err i pre bad rest hpre hfail]

theorem claim_C4_witness :
    Injector.Invoke (Injector.mk [(some tyA, vA)] none) funF = some (Except.ok [vB])
    ∧ Injector.Invoke (Injector.mk [(some tyA, vA)] none) funG
        = some (Except.error (Err.dependencyNotFound tyT0)) := by
  constructor
  · have h := ((claim_C4 (Injector.mk [(some tyA, vA)] none) funF).1
      (by decide) (by decide)).1
    rw [h]
    rfl
  · have h := ((claim_C4 (Injector.mk [(some tyA, vA)] none) funG).2 [] tyT0 [] rfl
      (by simp) (by decide)).1
    rw [h]

/-- The overwrite `Apply` performs on one injectable field. -/
def injectUpd (i : Injector) (f : FieldInfo) : FieldInfo :=
  if f.canSet && f.injectTag then FieldInfo.mk f.canSet f.injectTag f.fty (i.get f.fty)
  else f

theorem applyFields_err (i : Injector) (pre : List FieldInfo) (bad : FieldInfo)
    (rest : List FieldInfo)
    (hpre : ∀ f ∈ pre, (f.canSet && f.injectTag) = true →
       (i.get f.fty).isValid = true ∧ (i.get f.fty).assignableTo f.fty = true)
    (hbad : (bad.canSet && bad.injectTag) = true)
    (hfail : Injector.Get i (some bad.fty) = GetRes.ret Val.invalid) :
    applyFields i (pre ++ bad :: rest)
      = some (pre.map (injectUpd i) ++ bad :: rest,
              some (Err.dependencyNotFound bad.fty)) := by
  induction pre with
  | nil =>
    rw [List.nil_append, applyFields, hfail]
    simp [hbad]
  | cons f pre2 ih =>
    rw [List.cons_append, applyFields]
    by_cases hc : (f.canSet && f.injectTag) = true
    · have hv : (i.get f.fty).isValid = true := (hpre f (by simp) hc).1
      have ha : (i.get f.fty).assignableTo f.fty = true := (hpre f (by simp) hc).2
      rw [Get_valid_ret i f.fty hv]
      rw [ih (fun f2 hf2 => hpre f2 (by simp [hf2]))]
      simp [hc, hv, ha, injectUpd]
    · rw [ih (fun f2 hf2 => hpre f2 (by simp [hf2]))]
      simp [hc, injectUpd]

/-- Claim C5 counterexample: at the registry reached by `Set(tyA, vB)`
— a value of type `B` stored under key `A` — the struct has an earlier
injectable field of type `tyA` whose type resolves to a valid value and
a later injectable field of the unresolvable type `tyT0`; the claim
asserts `Apply` returns the dependency-not-found error for `tyT0` with
the earlier field set, but `f.Set` panics (`none`) on the earlier field
because the resolved value is not assignable to the field type, and the
error is never returned. -/
theorem claim_C5_counterexample :
    ((Injector.Set New (some tyA) vB).get tyA).isValid = true
    ∧ Injector.Get (Injector.Set New (some tyA) vB) (some tyT0) = GetRes.ret Val.invalid
    ∧ Injector.Apply (Injector.Set New (some tyA) vB)
        (Target.strukt [FieldInfo.mk true true tyA Val.invalid,
                        FieldInfo.mk true true tyT0 Val.invalid]) = none := by
  refine ⟨by decide, by decide, rfl⟩

/-- Claim C5 (amended): for every struct target whose injectable
(settable, inject-tagged) fields split as `pre ++ bad :: rest` where
every injectable field of `pre` resolves to a value assignable to the
field's declared type (the check `reflect.Value.Set` performs; a
mismatched value stored via `Set`/`MapTo` fails it and makes `f.Set`
panic before the failing field is reached) and `bad` is injectable but
its declared type fails to resolve, `Apply` returns the
dependency-not-found error identifying `bad`'s type, and no rollback
occurs: every injectable field of `pre` keeps the resolved value `Apply`
assigned to it, and the remaining fields are untouched. -/
theorem claim_C5 (i : Injector) (pre : List FieldInfo) (bad : FieldInfo)
    (rest : List FieldInfo)
    (hpre : ∀ f ∈ pre, (f.canSet && f.injectTag) = true →
       (i.get f.fty).isValid = true ∧ (i.get f.fty).assignableTo f.fty = true)
    (hbad : (bad.canSet && bad.injectTag) = true)
    (hfail : Injector.Get i (some bad.fty) = GetRes.ret Val.invalid) :
    Injector.Apply i (Target.strukt (pre ++ bad :: rest))
      = some (Target.strukt (pre.map (injectUpd i) ++ bad :: rest),
              some (Err.dependencyNotFound bad.fty)) := by
  rw [Injector.Apply, applyFields_err i pre bad rest hpre hbad hfail]

theorem claim_C5_witness :
    Injector.Apply (Injector.mk [(some tyA, vA)] none)
        (Target.strukt [FieldInfo.mk true true tyA Val.invalid,
                        FieldInfo.mk true true tyT0 Val.invalid])
      = some (Target.strukt [FieldInfo.mk true true tyA vA,
                             FieldInfo.mk true true tyT0 Val.invalid],
              some (Err.dependencyNotFound tyT0)) := by
  have h := claim_C5 (Injector.mk [(some tyA, vA)] none)
    [FieldInfo.mk true true tyA Val.invalid] (FieldInfo.mk true true tyT0 Val.invalid) []
    (by intro f hf hc; fin_cases hf; exact ⟨by decide, by decide⟩)
    (by decide) (by decide)
  exact h.trans (by decide)

/-- Claim C8: `MapTo` fails fatally (panics) if and only if the witness
argument does not denote an interface type after fully dereferencing any
number of pointer indirections (a nil witness also panics, at the nil
type's method call); when the witness does denote an interface type,
`MapTo` stores the value under that interface type and returns the
registry. -/
theorem claim_C8 (i : Injector) (v w : GoAny) :
    (Injector.MapTo i v w = none ↔
       ¬ (∃ t, typeOf w = some t ∧ (derefTy t).kind = Kind.interfaceK))
    ∧ (∀ t, typeOf w = some t → (derefTy t).kind = Kind.interfaceK →
       Injector.MapTo i v w
         = some (Injector.mk (mapSet i.values (some (derefTy t)) (valueOf v)) i.parent)) := by
  obtain ⟨vs, p⟩ := i
  cases w with
  | nil =>
    constructor
    · simp [Injector.MapTo, InterfaceOf, typeOf]
    · intro t ht
      simp [typeOf] at ht
  | val t0 d =>
    by_cases hk : (derefTy t0).kind = Kind.interfaceK
    · constructor
      · constructor
        · intro hmt
          rw [Injector.MapTo] at hmt
          simp [InterfaceOf, typeOf, hk] at hmt
        · intro hne
          exact absurd ⟨t0, rfl, hk⟩ hne
      · intro t ht hkind
        simp only [typeOf, Option.some.injEq] at ht
        subst ht
        rw [Injector.MapTo]
        simp [InterfaceOf, typeOf, hk]
    · constructor
      · constructor
        · intro hmt
          rintro ⟨t, ht, hkind⟩
          simp only [typeOf, Option.some.injEq] at ht
          subst ht
          exact hk hkind
        · intro hne
          rw [Injector.MapTo]
          simp [InterfaceOf, typeOf, hk]
      · intro t ht hkind
        simp only [typeOf, Option.some.injEq] at ht
        subst ht
        exact absurd hkind hk

theorem claim_C8_witness :
    Injector.MapTo New (GoAny.val tyA 1) (GoAny.val (Ty.ptr [] ifaceI) 0)
      = some (Injector.mk [(some ifaceI, vA)] none)
    ∧ Injector.MapTo New (GoAny.val tyA 1) (GoAny.val tyB 0) = none := by
  constructor
  · have h := (claim_C8 New (GoAny.val tyA 1) (GoAny.val (Ty.ptr [] ifaceI) 0)).2
      (Ty.ptr [] ifaceI) rfl (by decide)
    rw [h]
    rfl
  · refine (claim_C8 New (GoAny.val tyA 1) (GoAny.val tyB 0)).1.mpr ?_
    rintro ⟨t, ht, hkind⟩
    simp only [typeOf, Option.some.injEq] at ht
    subst ht
    revert hkind
    decide

/-- Claim C9: for every input to `Apply` whose value, after
dereferencing any number of pointer indirections, is not a struct,
`Apply` is a silent no-op: it returns success (a nil error), performs no
field injection (the target is unchanged), and performs no registry
change. -/
theorem claim_C9 (i : Injector) (v : Target)
    (h : (derefTarget v).isStruct = false) :
    Injector.Apply i v = some (v, none) ∧ (Injector.ApplySt i v).1 = i :=
  ⟨Apply_nonStruct i v h, ApplySt_fst i v⟩

theorem claim_C9_witness :
    Injector.Apply New (Target.ptr (Target.base vA))
      = some (Target.ptr (Target.base vA), none)
    ∧ (Injector.ApplySt New (Target.ptr (Target.base vA))).1 = New :=
  claim_C9 New (Target.ptr (Target.base vA)) (by decide)

/-- Claim C10: `Get`, `Apply` and `Invoke` never mutate any registry:
with the registry state threaded explicitly through every call (and
recursively through the whole parent chain), the state handed back is
identical to the state handed in, for every registry and every input;
only `Map`, `MapTo`, `Set` and `SetParent` change registry state. -/
theorem claim_C10 :
    (∀ (i : Injector) (t : Option Ty), (Injector.GetSt i t).1 = i)
    ∧ (∀ (i : Injector) (v : Target), (Injector.ApplySt i v).1 = i)
    ∧ (∀ (i : Injector) (f : FuncVal), (Injector.InvokeSt i f).1 = i) :=
  ⟨GetSt_fst, ApplySt_fst, InvokeSt_fst⟩

end Inject
